import Mathlib

/-!
Verification of the release-management scripts (version oracle, package
counter synchronizer, commit changelog synthesizer, change attribution).

The Python sources under `.github/scripts/` are shallowly embedded below:
pure fragments become Lean functions on `List Char` / `String`, Python
`int()` parsing is modelled by `pyIntL`, Python `str.lstrip('v')` by
`List.dropWhile`, Python `str.split('.')` by `splitDot`, and fallible
functions return `Except`/`Option`.
-/

namespace Release

/-! ## Model of Python `int()` on decimal string literals -/

/-- Whitespace characters ignored by Python `int()` at both ends. -/
def isPySpace (c : Char) : Bool :=
  c = ' ' || c = '\t' || c = '\n' || c = '\r' || c = '\x0b' || c = '\x0c'

/-- Tail of a Python integer literal after its first digit: digits with
single underscores allowed only between digits. -/
def digitsTail : List Char → Bool
  | [] => true
  | c :: rest =>
    if c = '_' then
      match rest with
      | [] => false
      | r :: rs => r.isDigit && digitsTail rs
    else c.isDigit && digitsTail rest

/-- A valid unsigned Python integer literal body: nonempty, starts with a
digit, underscores only between digits. -/
def digitsOk : List Char → Bool
  | [] => false
  | c :: rest => c.isDigit && digitsTail rest

/-- Numeric value of a decimal digit character. -/
def digitVal (c : Char) : Nat := c.toNat - 48

/-- Value of a big-endian list of decimal digit characters. -/
def natOfDigits (l : List Char) : Nat :=
  l.foldl (fun n c => 10 * n + digitVal c) 0

/-- Strip leading and trailing whitespace, as Python `int()` does. -/
def stripPy (l : List Char) : List Char :=
  ((l.dropWhile isPySpace).reverse.dropWhile isPySpace).reverse

/-- Drop the underscores of a digit group. -/
def stripUnd (l : List Char) : List Char := l.filter (fun c => c != '_')

/-- Model of Python `int(s)` on a list of characters: optional surrounding
whitespace, optional sign, then a digit group. Returns `none` where Python
raises `ValueError`. -/
def pyIntL (l : List Char) : Option Int :=
  match stripPy l with
  | [] => none
  | c :: rest =>
    if c = '+' then
      if digitsOk rest then some (Int.ofNat (natOfDigits (stripUnd rest))) else none
    else if c = '-' then
      if digitsOk rest then some (-(Int.ofNat (natOfDigits (stripUnd rest)))) else none
    else
      if digitsOk (c :: rest) then some (Int.ofNat (natOfDigits (stripUnd (c :: rest)))) else none

/-! ## Decimal rendering, modelling Python `str()` of an `int` -/

/-- Fuel-driven big-endian decimal rendering of a natural number. -/
def renderNatAux : Nat → Nat → List Char
  | 0, _ => []
  | fuel + 1, n =>
    if n < 10 then [Nat.digitChar n]
    else renderNatAux fuel (n / 10) ++ [Nat.digitChar (n % 10)]

/-- Decimal rendering of a natural number (model of Python `str(n)`). -/
def renderNat (n : Nat) : List Char := renderNatAux (n + 1) n

/-- Decimal rendering of an integer (model of Python `str(i)`). -/
def renderInt : Int → List Char
  | Int.ofNat n => renderNat n
  | Int.negSucc n => '-' :: renderNat (n + 1)

/-! ## Model of Python `str.split('.')` -/

/-- Split a character list at every `'.'`, keeping empty groups, exactly as
Python `s.split('.')` does. -/
def splitDot : List Char → List (List Char)
  | [] => [[]]
  | c :: rest =>
    if c = '.' then [] :: splitDot rest
    else
      match splitDot rest with
      | [] => [[c]]
      | g :: gs => (c :: g) :: gs

/-! ## manage-release.py: `parse_semver`, `increment_version` -/

/-- Embedding of `parse_semver` (manage-release.py): strip every leading
`'v'` (Python `lstrip('v')`), split on `'.'`, require exactly three integer
components. -/
def parse_semver (tag : String) : Except String (Int × Int × Int) :=
  match splitDot (tag.data.dropWhile (fun c => c = 'v')) with
  | [p1, p2, p3] =>
    match pyIntL p1, pyIntL p2, pyIntL p3 with
    | some a, some b, some c => Except.ok (a, b, c)
    | _, _, _ => Except.error "Invalid version tag: all components must be integers."
  | _ => Except.error "Invalid version tag: expected format v<major>.<minor>.<patch>."

/-- Character body `<major>.<minor>.<patch>` of a rendered version. -/
def vbody (a b c : Int) : List Char :=
  renderInt a ++ '.' :: (renderInt b ++ '.' :: renderInt c)

/-- Canonical textual form `v<major>.<minor>.<patch>` used by
`increment_version` when rebuilding a tag. -/
def fmtTriple (a b c : Int) : String :=
  ⟨'v' :: vbody a b c⟩

/-- Embedding of `increment_version` (manage-release.py): validate the
update type, parse, then bump the triple. -/
def increment_version (tag : String) (update_type : String) : Except String String :=
  if update_type ∈ (["patch", "minor", "major"] : List String) then
    match parse_semver tag with
    | Except.error e => Except.error e
    | Except.ok (major, minor, patch) =>
      if update_type = "major" then Except.ok (fmtTriple (major + 1) 0 0)
      else if update_type = "minor" then Except.ok (fmtTriple major (minor + 1) 0)
      else Except.ok (fmtTriple major minor (patch + 1))
  else Except.error "Invalid update_type: must be one of patch, minor, major."

/-! ## manage-release.py: `determine_version` and its environment

The git/gradle queries (`get_current_tag`, `get_latest_tag`,
`get_version_from_gradle`, `get_max_version_code`) are read-only probes of
the repository state; they are modelled as the fields of `ReleaseEnv`. -/

/-- Repository state read by `determine_version`: the tag HEAD sits on (if
any), the latest tag in history (if any), the `versionName` prefix found in
`common.gradle` (if any), and the maximum `extVersionCode` over all
`build.gradle` files (0 when none found). -/
structure ReleaseEnv where
  current_tag : Option String
  latest_tag : Option String
  gradle_version : Option String
  max_version_code : Nat

/-- Embedding of `get_actual_version` (manage-release.py): combine the
gradle `versionName` prefix with the maximum `extVersionCode` as
`v<gradle>.<code>`, when both are available. -/
def get_actual_version (env : ReleaseEnv) : Option String :=
  match env.gradle_version with
  | some g =>
    if g ≠ "" ∧ 0 < env.max_version_code then
      some ⟨'v' :: (g.data ++ '.' :: renderNat env.max_version_code)⟩
    else none
  | none => none

/-- Embedding of `determine_version` (manage-release.py): on a tag with
`none` return it; otherwise prefer the actual gradle-derived version and
fall back to arithmetic incrementing; off-tag, bootstrap `v1.0.0` when no
tag exists. -/
def determine_version (env : ReleaseEnv) (update_type : String) : Except String String :=
  match env.current_tag with
  | some current_tag =>
    if update_type ≠ "none" then
      match get_actual_version env with
      | some actual_version => Except.ok actual_version
      | none => increment_version current_tag update_type
    else Except.ok current_tag
  | none =>
    match env.latest_tag with
    | none => Except.ok "v1.0.0"
    | some latest_tag =>
      if update_type = "none" then Except.ok latest_tag
      else
        match get_actual_version env with
        | some actual_version => Except.ok actual_version
        | none => increment_version latest_tag update_type

/-- Strict lexicographic order on parsed version triples (the spec's
"total order by lexicographic comparison on the triple"). -/
def tripleLt (v w : Int × Int × Int) : Prop :=
  v.1 < w.1 ∨ (v.1 = w.1 ∧ (v.2.1 < w.2.1 ∨ (v.2.1 = w.2.1 ∧ v.2.2 < w.2.2)))

instance (v w : Int × Int × Int) : Decidable (tripleLt v w) := by
  unfold tripleLt; infer_instance

/-- Exactly three components, each a valid integer literal. -/
def wellFormedParts (parts : List (List Char)) : Bool :=
  parts.length == 3 && parts.all (fun p => (pyIntL p).isSome)

/-- Well-formedness of a version tag as the spec words it: after removing
the leading `'v'` characters, exactly three dot-separated components, each
a valid integer literal. -/
def wellFormedSemver (tag : String) : Bool :=
  wellFormedParts (splitDot (tag.data.dropWhile (fun c => c = 'v')))

/-! ## update-versions.py: the package counter synchronizer

A `build.gradle` descriptor is abstracted to its `extVersionCode` counter
field, `none` when the file has no such field (the script then warns and
reports `(0, 0)` without writing). -/

/-- One package build descriptor, reduced to its counter field. -/
structure BuildDescriptor where
  counter : Option Nat
deriving DecidableEq

/-- Embedding of `update_version_code` (update-versions.py): increment the
counter by 1, returning the updated descriptor with the old and new
counter values; a descriptor without a counter is left unchanged. -/
def update_version_code (d : BuildDescriptor) : BuildDescriptor × Nat × Nat :=
  match d.counter with
  | none => (d, 0, 0)
  | some c => (⟨some (c + 1)⟩, c, c + 1)

/-- Embedding of the `main` loop of update-versions.py: validate the update
type, do nothing for `none`, otherwise run `update_version_code` on every
descriptor of the batch. -/
def update_versions_run (descs : List BuildDescriptor) (update_type : String) :
    Except String (List BuildDescriptor) :=
  if update_type ∈ (["none", "patch", "minor", "major"] : List String) then
    if update_type = "none" then Except.ok descs
    else Except.ok (descs.map (fun d => (update_version_code d).1))
  else Except.error "Invalid update_type: must be one of none, patch, minor, major."

/-! ## generate-changelog.py: changelog synthesis from classified commits

A classified commit (the dict appended to `changelog_data`) carries its
conventional-commit type, rendered description, breaking flag and short
hash. `changelog_data` is a Python dict from type to list, in key
insertion order; it is modelled by an association list built by
`addEntry`. -/

/-- One classified commit as stored in `changelog_data`. -/
structure Entry where
  ctype : String
  description : String
  breaking : Bool
  hash : String
deriving DecidableEq

/-- Append an entry to the list of its type, inserting a new key at the
end when the type is not present (Python `defaultdict` + dict insertion
order). -/
def addEntry (m : List (String × List Entry)) (ty : String) (e : Entry) :
    List (String × List Entry) :=
  match m with
  | [] => [(ty, [e])]
  | (k, v) :: rest => if k = ty then (k, v ++ [e]) :: rest else (k, v) :: addEntry rest ty e

/-- The `changelog_data` map built from the commit sequence. -/
def buildData (es : List Entry) : List (String × List Entry) :=
  es.foldl (fun m e => addEntry m e.ctype e) []

/-- Dict lookup: `changelog_data[ty]` when `ty` is a key. -/
def alookup (m : List (String × List Entry)) (ty : String) : Option (List Entry) :=
  match m with
  | [] => none
  | (k, v) :: rest => if k = ty then some v else alookup rest ty

/-- Rendering of one breaking-change line. -/
def renderBreakingLine (e : Entry) : String :=
  "- **BREAKING**: " ++ e.description ++ " (" ++ e.hash ++ ")"

/-- Rendering of one ordinary section line. -/
def renderEntryLine (e : Entry) : String :=
  "- " ++ e.description ++ " (" ++ e.hash ++ ")"

/-- The breaking-changes collection loop: iterate `changelog_data` in key
insertion order and render every entry with `breaking = True`. -/
def breakingOf : List (String × List Entry) → List String
  | [] => []
  | (_, l) :: rest =>
    (l.filter (fun e => e.breaking)).map renderBreakingLine ++ breakingOf rest

/-- The fixed category priority order of the section loop. -/
def typeOrder : List String :=
  ["feat", "fix", "docs", "style", "refactor", "perf", "test", "build", "ci", "chore", "other"]

/-- The `type_labels` table, with the `commit_type.capitalize()` default. -/
def typeLabel (ty : String) : String :=
  if ty = "feat" then "✨ Features"
  else if ty = "fix" then "🐛 Bug Fixes"
  else if ty = "docs" then "📚 Documentation"
  else if ty = "style" then "💄 Styles"
  else if ty = "refactor" then "♻️ Refactoring"
  else if ty = "perf" then "⚡ Performance"
  else if ty = "test" then "✅ Tests"
  else if ty = "build" then "👷 Build"
  else if ty = "ci" then "🔧 CI/CD"
  else if ty = "chore" then "🔨 Chores"
  else if ty = "other" then "📝 Other Changes"
  else ty.capitalize

/-- The header line emitted for a category section. -/
def headerStr (ty : String) : String := "## " ++ typeLabel ty ++ "\n"

/-- The lines contributed by one category: emitted when the type is a key
of `changelog_data` with a nonempty list; only non-breaking entries are
rendered under the header. -/
def sectionBlock (data : List (String × List Entry)) (ty : String) : List String :=
  match alookup data ty with
  | none => []
  | some l =>
    if l.isEmpty then []
    else headerStr ty :: ((l.filter (fun e => !e.breaking)).map renderEntryLine ++ [""])

/-- The section loop over the fixed category order. -/
def sectionsAux (tys : List String) (data : List (String × List Entry)) : List String :=
  match tys with
  | [] => []
  | ty :: rest => sectionBlock data ty ++ sectionsAux rest data

/-- The `changelog_lines` list assembled by `generate_changelog`:
breaking-changes block first (when nonempty), then the category
sections. -/
def changelogLines (es : List Entry) : List String :=
  (if (breakingOf (buildData es)).isEmpty then []
   else "## ⚠️ Breaking Changes\n" :: (breakingOf (buildData es) ++ [""])) ++
    sectionsAux typeOrder (buildData es)

/-- First-occurrence sequence of commit types of a commit list (the key
insertion order of the dict), starting from already-seen keys `ks`. -/
def typeKeysFrom (ks : List String) (es : List Entry) : List String :=
  es.foldl (fun ks e => if e.ctype ∈ ks then ks else ks ++ [e.ctype]) ks

/-- First-occurrence sequence of commit types of a commit list. -/
def typeKeys (es : List Entry) : List String := typeKeysFrom [] es

/-- Specification-side description of the breaking block: types in first
occurrence order, and within one type the breaking entries in commit
order. -/
def groupedBreakingAux (ks : List String) (es : List Entry) : List String :=
  match ks with
  | [] => []
  | ty :: rest =>
    ((es.filter (fun e => e.ctype = ty)).filter (fun e => e.breaking)).map renderBreakingLine ++
      groupedBreakingAux rest es

/-! ## generate-changelog.py: change attribution from file paths -/

/-- Character class `[^/]` of the attribution regex. -/
def notSlash (c : Char) : Bool := c != '/'

/-- Embedding of `get_app_from_path` (generate-changelog.py): the regex
`src/([^/]+)/([^/]+)/` matched at the start of the path; returns the
second group. Each `[^/]+` takes the maximal nonempty run of non-slash
characters, which must be followed by a `/`. -/
def app_of_chars (pl : List Char) : Option String :=
  match pl with
  | c1 :: c2 :: c3 :: c4 :: rest =>
    if c1 = 's' ∧ c2 = 'r' ∧ c3 = 'c' ∧ c4 = '/' then
      if rest.takeWhile notSlash ≠ [] ∧ rest.dropWhile notSlash ≠ [] then
        if (rest.dropWhile notSlash).tail.takeWhile notSlash ≠ [] ∧
            (rest.dropWhile notSlash).tail.dropWhile notSlash ≠ [] then
          some ⟨(rest.dropWhile notSlash).tail.takeWhile notSlash⟩
        else none
      else none
    else none
  | _ => none

/-- The full attribution function applied to a path string. -/
def get_app_from_path (p : String) : Option String :=
  app_of_chars p.data

/-- Embedding of `detect_affected_apps` (generate-changelog.py): the set of
apps named by the changed paths (a Python `set`, modelled as the
duplicate-free list of first occurrences). -/
def detect_affected_apps (files : List String) : List String :=
  (files.filterMap get_app_from_path).dedup

/-- Python string comparison on two character lists: lexicographic by code
point. -/
def charListLe : List Char → List Char → Bool
  | [], _ => true
  | _ :: _, [] => false
  | a :: as, b :: bs =>
    a.toNat < b.toNat || (a.toNat = b.toNat && charListLe as bs)

/-- Python `<=` on strings. -/
def pyStrLe (s t : String) : Bool := charListLe s.data t.data

instance : DecidableRel (fun s t => pyStrLe s t = true) := fun _ _ => inferInstance

/-- The rendered attribution: `sorted(affected_apps)` as used by the
changelog generator. -/
def sorted_affected (files : List String) : List String :=
  (detect_affected_apps files).insertionSort (fun s t => pyStrLe s t = true)

/-- Specification-side shape predicate: `p` has the form
`src/<category>/<packageName>/...` and `a` is its package-name
component. -/
def appPathShape (p : String) (a : String) : Prop :=
  ∃ cat tail : List Char,
    cat ≠ [] ∧ a.data ≠ [] ∧ (∀ ch ∈ cat, ch ≠ '/') ∧ (∀ ch ∈ a.data, ch ≠ '/') ∧
      p.data = 's' :: 'r' :: 'c' :: '/' :: (cat ++ '/' :: (a.data ++ '/' :: tail))

end Release


namespace Release

/-! ## Round-trip lemmas: rendering then parsing an integer -/

lemma digitChar_spec (n : Nat) (h : n < 10) :
    (Nat.digitChar n).isDigit = true ∧ digitVal (Nat.digitChar n) = n ∧
    isPySpace (Nat.digitChar n) = false ∧ ¬ Nat.digitChar n = '_' ∧
    ¬ Nat.digitChar n = '.' ∧ ¬ Nat.digitChar n = 'v' ∧ ¬ Nat.digitChar n = '+' ∧
    ¬ Nat.digitChar n = '-' ∧ ¬ Nat.digitChar n = '/' := by
  interval_cases n <;> exact ⟨by decide, by decide, by decide, by decide, by decide,
    by decide, by decide, by decide, by decide⟩

lemma natOfDigits_concat (l : List Char) (c : Char) :
    natOfDigits (l ++ [c]) = 10 * natOfDigits l + digitVal c := by
  simp [natOfDigits, List.foldl_append]

lemma renderNatAux_spec : ∀ fuel n : Nat, n < fuel →
    renderNatAux fuel n ≠ [] ∧ natOfDigits (renderNatAux fuel n) = n ∧
      ∀ c ∈ renderNatAux fuel n, ∃ d, d < 10 ∧ c = Nat.digitChar d := by
  intro fuel
  induction fuel with
  | zero => intro n h; exact absurd h (Nat.not_lt_zero n)
  | succ fuel ih =>
    intro n h
    by_cases h10 : n < 10
    · refine ⟨by simp [renderNatAux, h10], ?_, ?_⟩
      · have hv := (digitChar_spec n h10).2.1
        simp [renderNatAux, h10, natOfDigits, hv]
      · intro c hc
        simp [renderNatAux, h10] at hc
        exact ⟨n, h10, hc⟩
    · have hpos : 0 < n := by omega
      have hdiv : n / 10 < fuel := by
        have := Nat.div_lt_self hpos (by omega : 1 < 10)
        omega
      obtain ⟨hne, hval, hchars⟩ := ih (n / 10) hdiv
      have hmod : n % 10 < 10 := Nat.mod_lt n (by omega)
      refine ⟨by simp [renderNatAux, h10], ?_, ?_⟩
      · rw [show renderNatAux (fuel + 1) n =
            renderNatAux fuel (n / 10) ++ [Nat.digitChar (n % 10)] by
              simp [renderNatAux, h10]]
        rw [natOfDigits_concat, hval, (digitChar_spec (n % 10) hmod).2.1]
        omega
      · intro c hc
        rw [show renderNatAux (fuel + 1) n =
            renderNatAux fuel (n / 10) ++ [Nat.digitChar (n % 10)] by
              simp [renderNatAux, h10]] at hc
        rcases List.mem_append.mp hc with hmem | hmem
        · exact hchars c hmem
        · exact ⟨n % 10, hmod, by simpa using hmem⟩

lemma renderNat_ne_nil (n : Nat) : renderNat n ≠ [] :=
  (renderNatAux_spec (n + 1) n (Nat.lt_succ_self n)).1

lemma renderNat_val (n : Nat) : natOfDigits (renderNat n) = n :=
  (renderNatAux_spec (n + 1) n (Nat.lt_succ_self n)).2.1

lemma renderNat_props (n : Nat) : ∀ c ∈ renderNat n,
    c.isDigit = true ∧ isPySpace c = false ∧ ¬ c = '_' ∧ ¬ c = '.' ∧ ¬ c = 'v' ∧
      ¬ c = '+' ∧ ¬ c = '-' ∧ ¬ c = '/' := by
  intro c hc
  obtain ⟨d, hd, rfl⟩ := (renderNatAux_spec (n + 1) n (Nat.lt_succ_self n)).2.2 c hc
  have h := digitChar_spec d hd
  exact ⟨h.1, h.2.2.1, h.2.2.2.1, h.2.2.2.2.1, h.2.2.2.2.2.1, h.2.2.2.2.2.2.1,
    h.2.2.2.2.2.2.2.1, h.2.2.2.2.2.2.2.2⟩

lemma digitsTail_of_digits : ∀ l : List Char, (∀ c ∈ l, c.isDigit = true) →
    digitsTail l = true := by
  intro l
  induction l with
  | nil => intro _; rfl
  | cons c rest ih =>
    intro h
    have hc : c.isDigit = true := h c (List.mem_cons_self c rest)
    have hcne : ¬ c = '_' := by
      intro e; rw [e] at hc; exact absurd hc (by decide)
    have := ih (fun x hx => h x (List.mem_cons_of_mem c hx))
    unfold digitsTail
    rw [if_neg hcne]
    simp [hc, this]

lemma digitsOk_of_digits (l : List Char) (hne : l ≠ []) (h : ∀ c ∈ l, c.isDigit = true) :
    digitsOk l = true := by
  cases l with
  | nil => exact absurd rfl hne
  | cons c rest =>
    have hc : c.isDigit = true := h c (List.mem_cons_self c rest)
    have := digitsTail_of_digits rest (fun x hx => h x (List.mem_cons_of_mem c hx))
    simp [digitsOk, hc, this]

lemma dropWhile_false_of_all {p : Char → Bool} (l : List Char)
    (h : ∀ c ∈ l, p c = false) : l.dropWhile p = l := by
  cases l with
  | nil => rfl
  | cons c t => simp [List.dropWhile, h c (List.mem_cons_self c t)]

lemma stripPy_of_all (l : List Char) (h : ∀ c ∈ l, isPySpace c = false) :
    stripPy l = l := by
  unfold stripPy
  rw [dropWhile_false_of_all l h,
    dropWhile_false_of_all l.reverse (fun c hc => h c (List.mem_reverse.mp hc)),
    List.reverse_reverse]

lemma stripUnd_of_all (l : List Char) (h : ∀ c ∈ l, ¬ c = '_') : stripUnd l = l := by
  unfold stripUnd
  apply List.filter_eq_self.mpr
  intro c hc
  simpa using h c hc

lemma pyIntL_of_digits (l : List Char) (hne : l ≠ [])
    (h : ∀ c ∈ l, c.isDigit = true ∧ isPySpace c = false ∧ ¬ c = '_' ∧ ¬ c = '+' ∧ ¬ c = '-') :
    pyIntL l = some (Int.ofNat (natOfDigits l)) := by
  obtain ⟨c, t, rfl⟩ := List.exists_cons_of_ne_nil hne
  have hs : stripPy (c :: t) = c :: t := stripPy_of_all _ (fun x hx => (h x hx).2.1)
  have hc := h c (List.mem_cons_self c t)
  simp only [pyIntL, hs]
  rw [if_neg hc.2.2.2.1, if_neg hc.2.2.2.2,
    if_pos (digitsOk_of_digits (c :: t) (by simp) (fun x hx => (h x hx).1)),
    stripUnd_of_all (c :: t) (fun x hx => (h x hx).2.2.1)]

lemma pyIntL_renderNat (n : Nat) : pyIntL (renderNat n) = some (Int.ofNat n) := by
  rw [pyIntL_of_digits (renderNat n) (renderNat_ne_nil n)
    (fun c hc => by
      have := renderNat_props n c hc
      exact ⟨this.1, this.2.1, this.2.2.1, this.2.2.2.2.2.1, this.2.2.2.2.2.2.1⟩),
    renderNat_val]

lemma pyIntL_renderInt (i : Int) : pyIntL (renderInt i) = some i := by
  cases i with
  | ofNat n => simpa [renderInt] using pyIntL_renderNat n
  | negSucc n =>
    have hall : ∀ c ∈ '-' :: renderNat (n + 1), isPySpace c = false := by
      intro c hc
      rcases List.mem_cons.mp hc with rfl | hmem
      · decide
      · exact (renderNat_props (n + 1) c hmem).2.1
    have hs : stripPy ('-' :: renderNat (n + 1)) = '-' :: renderNat (n + 1) :=
      stripPy_of_all _ hall
    have h1 : digitsOk (renderNat (n + 1)) = true :=
      digitsOk_of_digits _ (renderNat_ne_nil (n + 1))
        (fun x hx => (renderNat_props (n + 1) x hx).1)
    have h2 : stripUnd (renderNat (n + 1)) = renderNat (n + 1) :=
      stripUnd_of_all _ (fun x hx => (renderNat_props (n + 1) x hx).2.2.1)
    simp only [renderInt, pyIntL, hs]
    simp [h1, h2, renderNat_val, Int.negSucc_eq]

end Release

namespace Release

/-! ## Splitting and parsing rendered version strings -/

lemma splitDot_no_dot : ∀ l : List Char, (∀ c ∈ l, ¬ c = '.') → splitDot l = [l] := by
  intro l
  induction l with
  | nil => intro _; rfl
  | cons c rest ih =>
    intro h
    have hc : ¬ c = '.' := h c (List.mem_cons_self c rest)
    have hrest := ih (fun x hx => h x (List.mem_cons_of_mem c hx))
    simp [splitDot, hc, hrest]

lemma splitDot_append : ∀ (a r : List Char), (∀ c ∈ a, ¬ c = '.') →
    splitDot (a ++ '.' :: r) = a :: splitDot r := by
  intro a
  induction a with
  | nil => intro r _; simp [splitDot]
  | cons c rest ih =>
    intro r h
    have hc : ¬ c = '.' := h c (List.mem_cons_self c rest)
    have hrest := ih r (fun x hx => h x (List.mem_cons_of_mem c hx))
    simp [splitDot, hc, hrest]

lemma renderInt_ne_nil (i : Int) : renderInt i ≠ [] := by
  cases i with
  | ofNat n => exact renderNat_ne_nil n
  | negSucc n => simp [renderInt]

lemma renderInt_no_dot (i : Int) : ∀ c ∈ renderInt i, ¬ c = '.' := by
  intro c hc
  cases i with
  | ofNat n => exact (renderNat_props n c hc).2.2.2.1
  | negSucc n =>
    rcases List.mem_cons.mp hc with rfl | hmem
    · decide
    · exact (renderNat_props (n + 1) c hmem).2.2.2.1

lemma renderInt_head_ne_v (i : Int) : ∀ c t, renderInt i = c :: t → ¬ c = 'v' := by
  intro c t hct
  cases i with
  | ofNat n =>
    have : c ∈ renderNat n := by rw [show renderNat n = c :: t from hct]; exact List.mem_cons_self c t
    exact (renderNat_props n c this).2.2.2.2.1
  | negSucc n =>
    have h2 : '-' = c := by simpa [renderInt] using congrArg (fun l => l.head?) hct
    rw [← h2]; decide

lemma dropWhile_v_replicate (n : Nat) (l : List Char) :
    (List.replicate n 'v' ++ l).dropWhile (fun c => c = 'v') =
      l.dropWhile (fun c => c = 'v') := by
  induction n with
  | zero => simp
  | succ n ih => simp [List.replicate_succ, List.dropWhile_cons, ih]

lemma dropWhile_v_of_head (m X : List Char) (hne : m ≠ [])
    (hhead : ∀ c t, m = c :: t → ¬ c = 'v') :
    (m ++ X).dropWhile (fun c => c = 'v') = m ++ X := by
  obtain ⟨c0, t0, rfl⟩ := List.exists_cons_of_ne_nil hne
  have := hhead c0 t0 rfl
  simp [List.dropWhile_cons, this]

lemma parse_core (l : List Char) (a b c : Int)
    (h : splitDot (l.dropWhile (fun x => x = 'v')) = [renderInt a, renderInt b, renderInt c]) :
    parse_semver ⟨l⟩ = Except.ok (a, b, c) := by
  unfold parse_semver
  have hd : (String.mk l).data = l := rfl
  rw [hd, h]
  simp [pyIntL_renderInt]

lemma parse_semver_v_pow (n : Nat) (a b c : Int) :
    parse_semver ⟨List.replicate n 'v' ++ vbody a b c⟩ = Except.ok (a, b, c) := by
  apply parse_core
  unfold vbody
  rw [dropWhile_v_replicate,
    dropWhile_v_of_head (renderInt a) _ (renderInt_ne_nil a) (renderInt_head_ne_v a),
    splitDot_append (renderInt a) _ (renderInt_no_dot a),
    splitDot_append (renderInt b) _ (renderInt_no_dot b),
    splitDot_no_dot (renderInt c) (renderInt_no_dot c)]

lemma parse_fmtTriple (a b c : Int) : parse_semver (fmtTriple a b c) = Except.ok (a, b, c) := by
  have h := parse_semver_v_pow 1 a b c
  simpa [fmtTriple, List.replicate] using h

end Release

namespace Release

/-! ## Helper lemmas for the increment and synchronizer claims -/

lemma increment_version_eq (tag : String) (a b c : Int)
    (h : parse_semver tag = Except.ok (a, b, c)) :
    increment_version tag "major" = Except.ok (fmtTriple (a + 1) 0 0) ∧
    increment_version tag "minor" = Except.ok (fmtTriple a (b + 1) 0) ∧
    increment_version tag "patch" = Except.ok (fmtTriple a b (c + 1)) := by
  refine ⟨?_, ?_, ?_⟩ <;>
    · unfold increment_version
      rw [if_pos (by decide)]
      rw [h]
      simp

lemma update_version_code_counter (d : BuildDescriptor) :
    ((update_version_code d).1).counter = d.counter.map (fun c => c + 1) := by
  obtain ⟨cnt⟩ := d
  cases cnt <;> rfl

end Release

namespace Release

/-! ## Claim theorems: version oracle and counter synchronizer -/

/-- Claim C4, counterexample: the string "1.2.3" is a valid version string
without the canonical prefix; it parses to (1, 2, 3), but re-rendering that
triple canonically yields "v1.2.3", which differs from the input. -/
theorem claim4_counterexample :
    parse_semver "1.2.3" = Except.ok (1, 2, 3) ∧ fmtTriple 1 2 3 = "v1.2.3" ∧
      ("v1.2.3" : String) ≠ "1.2.3" :=
  ⟨rfl, rfl, by decide⟩

/-- Claim C4, amended: for every version string in canonical form
`v<major>.<minor>.<patch>` (a single 'v' and canonically rendered integer
components), parsing and re-rendering the parsed triple yields a string
identical to the input; the parse returns exactly the rendered triple. -/
theorem claim4_roundtrip (a b c : Int) :
    parse_semver (fmtTriple a b c) = Except.ok (a, b, c) ∧
      (parse_semver (fmtTriple a b c)).map (fun v => fmtTriple v.1 v.2.1 v.2.2) =
        Except.ok (fmtTriple a b c) := by
  refine ⟨parse_fmtTriple a b c, ?_⟩
  rw [parse_fmtTriple]
  rfl

/-- Claim C10: parsing strips every leading 'v', so a rendered triple
prefixed by any number of 'v' characters (zero, one, or several) parses to
the same (major, minor, patch) triple; in particular "1.2.3", "v1.2.3" and
"vv1.2.3" all parse to (1, 2, 3). -/
theorem claim10_lstrip :
    (∀ (n : Nat) (a b c : Int),
      parse_semver ⟨List.replicate n 'v' ++ vbody a b c⟩ = Except.ok (a, b, c)) ∧
    parse_semver "1.2.3" = Except.ok (1, 2, 3) ∧
    parse_semver "v1.2.3" = Except.ok (1, 2, 3) ∧
    parse_semver "vv1.2.3" = Except.ok (1, 2, 3) :=
  ⟨fun n a b c => parse_semver_v_pow n a b c, rfl, rfl, rfl⟩

/-- Claim C5: when the repository is positioned exactly on a tag, resolving
with bump class `none` returns that tag unchanged, whatever the latest tag,
gradle version name and descriptor counters are. -/
theorem claim5_none_on_tag (env : ReleaseEnv) (ct : String)
    (h : env.current_tag = some ct) :
    determine_version env "none" = Except.ok ct := by
  unfold determine_version
  rw [h]
  simp

/-- Witness for C5 at a concrete repository state. -/
theorem claim5_witness :
    determine_version ⟨some "v1.2.3", some "v0.1.0", some "9.9", 42⟩ "none" =
      Except.ok "v1.2.3" :=
  claim5_none_on_tag ⟨some "v1.2.3", some "v0.1.0", some "9.9", 42⟩ "v1.2.3" rfl

/-- Claim C7: the arithmetic increment of a parsed version is
(major+1, 0, 0) for a major bump, (major, minor+1, 0) for a minor bump and
(major, minor, patch+1) for a patch bump, for every well-formed tag. -/
theorem claim7_arith (tag : String) (a b c : Int)
    (h : parse_semver tag = Except.ok (a, b, c)) :
    (increment_version tag "major" = Except.ok (fmtTriple (a + 1) 0 0) ∧
      parse_semver (fmtTriple (a + 1) 0 0) = Except.ok (a + 1, 0, 0)) ∧
    (increment_version tag "minor" = Except.ok (fmtTriple a (b + 1) 0) ∧
      parse_semver (fmtTriple a (b + 1) 0) = Except.ok (a, b + 1, 0)) ∧
    (increment_version tag "patch" = Except.ok (fmtTriple a b (c + 1)) ∧
      parse_semver (fmtTriple a b (c + 1)) = Except.ok (a, b, c + 1)) := by
  obtain ⟨h1, h2, h3⟩ := increment_version_eq tag a b c h
  exact ⟨⟨h1, parse_fmtTriple _ _ _⟩, ⟨h2, parse_fmtTriple _ _ _⟩, ⟨h3, parse_fmtTriple _ _ _⟩⟩

/-- Witness for C7 at the tag "v1.2.3". -/
theorem claim7_witness :
    (increment_version "v1.2.3" "major" = Except.ok (fmtTriple 2 0 0) ∧
      parse_semver (fmtTriple 2 0 0) = Except.ok (2, 0, 0)) ∧
    (increment_version "v1.2.3" "minor" = Except.ok (fmtTriple 1 3 0) ∧
      parse_semver (fmtTriple 1 3 0) = Except.ok (1, 3, 0)) ∧
    (increment_version "v1.2.3" "patch" = Except.ok (fmtTriple 1 2 4) ∧
      parse_semver (fmtTriple 1 2 4) = Except.ok (1, 2, 4)) :=
  claim7_arith "v1.2.3" 1 2 3 rfl

/-- Claim C6, counterexample: on the tag v2.0.0 with gradle versionName
prefix "1.0" and maximum counter 5, resolving a patch bump returns v1.0.5,
which is strictly smaller than the starting version, not greater. -/
theorem claim6_counterexample :
    determine_version ⟨some "v2.0.0", none, some "1.0", 5⟩ "patch" = Except.ok "v1.0.5" ∧
    parse_semver "v2.0.0" = Except.ok (2, 0, 0) ∧
    parse_semver "v1.0.5" = Except.ok (1, 0, 5) ∧
    ¬ tripleLt (2, 0, 0) (1, 0, 5) :=
  ⟨rfl, rfl, rfl, by decide⟩

/-- Claim C6, amended: arithmetic incrementing is strictly monotone — for
every parseable starting version and bump class patch/minor/major the
incremented version is strictly greater under the triple order — and the
resolver takes exactly this arithmetic path when no actual gradle-derived
version is available; when an actual version is available the resolver
returns it instead, and it need not exceed the starting version. -/
theorem claim6_monotone :
    (∀ (tag t : String) (a b c : Int),
      t ∈ (["patch", "minor", "major"] : List String) →
      parse_semver tag = Except.ok (a, b, c) →
      ∃ (s : String) (a2 b2 c2 : Int),
        increment_version tag t = Except.ok s ∧
        parse_semver s = Except.ok (a2, b2, c2) ∧
        tripleLt (a, b, c) (a2, b2, c2)) ∧
    (∀ (env : ReleaseEnv) (ct t : String),
      env.current_tag = some ct → ¬ t = "none" → get_actual_version env = none →
      determine_version env t = increment_version ct t) := by
  constructor
  · intro tag t a b c ht h
    obtain ⟨h1, h2, h3⟩ := increment_version_eq tag a b c h
    have ht3 : t = "patch" ∨ t = "minor" ∨ t = "major" := by simpa using ht
    rcases ht3 with rfl | rfl | rfl
    · exact ⟨fmtTriple a b (c + 1), a, b, c + 1, h3, parse_fmtTriple _ _ _,
        Or.inr ⟨rfl, Or.inr ⟨rfl, by show c < c + 1; omega⟩⟩⟩
    · exact ⟨fmtTriple a (b + 1) 0, a, b + 1, 0, h2, parse_fmtTriple _ _ _,
        Or.inr ⟨rfl, Or.inl (by show b < b + 1; omega)⟩⟩
    · exact ⟨fmtTriple (a + 1) 0 0, a + 1, 0, 0, h1, parse_fmtTriple _ _ _,
        Or.inl (by show a < a + 1; omega)⟩
  · intro env ct t henv ht hact
    unfold determine_version
    rw [henv, hact]
    simp [ht]

/-- Witness for C6 at the tag "v1.2.3" with a minor bump, and for the
arithmetic fallback of the resolver. -/
theorem claim6_witness :
    (∃ (s : String) (a2 b2 c2 : Int),
      increment_version "v1.2.3" "minor" = Except.ok s ∧
      parse_semver s = Except.ok (a2, b2, c2) ∧
      tripleLt (1, 2, 3) (a2, b2, c2)) ∧
    determine_version ⟨some "v1.2.3", none, none, 0⟩ "patch" =
      increment_version "v1.2.3" "patch" :=
  ⟨claim6_monotone.1 "v1.2.3" "minor" 1 2 3 (by decide) rfl,
   claim6_monotone.2 ⟨some "v1.2.3", none, none, 0⟩ "v1.2.3" "patch" rfl (by decide) rfl⟩

/-- Claim C8: parsing succeeds exactly on well-formed tags (three
dot-separated integer components after stripping the 'v' prefix) — so on
malformed input it fails with an error and never returns a partial
version — and incrementing fails with an error whenever the bump class is
not one of patch/minor/major. -/
theorem claim8_error_conditions :
    (∀ tag : String, (∃ v, parse_semver tag = Except.ok v) ↔ wellFormedSemver tag = true) ∧
    (∀ tag t : String, t ∉ (["patch", "minor", "major"] : List String) →
      ∃ msg, increment_version tag t = Except.error msg) := by
  constructor
  · intro tag
    unfold parse_semver wellFormedSemver
    generalize splitDot (tag.data.dropWhile (fun c => c = 'v')) = parts
    match parts with
    | [] => simp [wellFormedParts]
    | [p1] => simp [wellFormedParts]
    | [p1, p2] => simp [wellFormedParts]
    | [p1, p2, p3] =>
      cases h1 : pyIntL p1 <;> cases h2 : pyIntL p2 <;> cases h3 : pyIntL p3 <;>
        simp [wellFormedParts, h1, h2, h3]
    | p1 :: p2 :: p3 :: p4 :: rest => simp [wellFormedParts]
  · intro tag t ht
    unfold increment_version
    rw [if_neg ht]
    exact ⟨_, rfl⟩

/-- Witness for C8: "v1.2.3" parses (and is well-formed), and the bump
class "bogus" makes incrementing fail. -/
theorem claim8_witness :
    (∃ v, parse_semver "v1.2.3" = Except.ok v) ∧
    (∃ msg, increment_version "v1.2.3" "bogus" = Except.error msg) :=
  ⟨(claim8_error_conditions.1 "v1.2.3").mpr (by decide),
   claim8_error_conditions.2 "v1.2.3" "bogus" (by decide)⟩

/-- Claim C1, counterexample: a descriptor batch with counter 5
synchronized with bump class "minor" ends with counter 6, not 15 — the
increment is +1, not +10. -/
theorem claim1_counterexample :
    update_versions_run [⟨some 5⟩] "minor" = Except.ok [⟨some 6⟩] ∧
      (Except.ok [(⟨some 6⟩ : BuildDescriptor)] : Except String (List BuildDescriptor)) ≠
        Except.ok [⟨some 15⟩] := by
  refine ⟨rfl, ?_⟩
  intro h
  have := Except.ok.inj h
  simp at this

/-- Claim C1, amended: every bump class among patch/minor/major increments
every present counter by exactly 1 (the same magnitude for every class and
every descriptor, descriptors without a counter unchanged), `none` changes
nothing, and applying minor then major to a counter starting at 5 leaves it
at 7. -/
theorem claim1_increment :
    (∀ (descs ds : List BuildDescriptor) (t : String),
      t ∈ (["patch", "minor", "major"] : List String) →
      update_versions_run descs t = Except.ok ds →
      ds.length = descs.length ∧
        ∀ (i : Nat) (h1 : i < descs.length) (h2 : i < ds.length),
          (ds.get ⟨i, h2⟩).counter = (descs.get ⟨i, h1⟩).counter.map (fun c => c + 1)) ∧
    (∀ descs, update_versions_run descs "none" = Except.ok descs) ∧
    (update_versions_run [⟨some 5⟩] "minor").bind (fun ds => update_versions_run ds "major") =
      Except.ok [⟨some 7⟩] := by
  refine ⟨?_, ?_, rfl⟩
  · intro descs ds t ht h
    have ht4 : t ∈ (["none", "patch", "minor", "major"] : List String) := by
      rcases (by simpa using ht : t = "patch" ∨ t = "minor" ∨ t = "major") with rfl | rfl | rfl <;>
        decide
    have htn : ¬ t = "none" := by
      rcases (by simpa using ht : t = "patch" ∨ t = "minor" ∨ t = "major") with rfl | rfl | rfl <;>
        decide
    unfold update_versions_run at h
    rw [if_pos ht4, if_neg htn] at h
    have hds : ds = descs.map (fun d => (update_version_code d).1) := (Except.ok.inj h).symm
    subst hds
    refine ⟨by simp, ?_⟩
    intro i h1 h2
    rw [List.get_eq_getElem, List.get_eq_getElem, List.getElem_map]
    exact update_version_code_counter _
  · intro descs
    rfl

/-- Witness for C1 at a two-descriptor batch with a patch bump: the first
descriptor's counter goes from 5 to 6. -/
theorem claim1_witness :
    (([⟨some 6⟩, ⟨none⟩] : List BuildDescriptor).get ⟨0, by decide⟩).counter =
      ((([⟨some 5⟩, ⟨none⟩] : List BuildDescriptor).get ⟨0, by decide⟩).counter.map
        (fun c => c + 1)) :=
  (claim1_increment.1 [⟨some 5⟩, ⟨none⟩] [⟨some 6⟩, ⟨none⟩] "patch" (by decide) rfl).2
    0 (by decide) (by decide)

end Release

namespace Release

/-! ## Structure of `changelog_data`: association-list lemmas -/

lemma nodup_append_singleton {ks : List String} {a : String} (h : ks.Nodup) (ha : a ∉ ks) :
    (ks ++ [a]).Nodup := by
  rw [List.nodup_append]
  exact ⟨h, List.nodup_singleton a, by simpa [List.disjoint_singleton] using ha⟩

lemma addEntry_map_mem (ks : List String) (g : String → List Entry) (ty0 : String) (e : Entry)
    (hnd : ks.Nodup) (hmem : ty0 ∈ ks) :
    addEntry (ks.map fun ty => (ty, g ty)) ty0 e =
      ks.map (fun ty => (ty, if ty = ty0 then g ty ++ [e] else g ty)) := by
  induction ks with
  | nil => cases hmem
  | cons k ks ih =>
    simp only [List.map_cons, addEntry]
    by_cases hk : k = ty0
    · subst hk
      rw [if_pos rfl]
      have hk_not : k ∉ ks := (List.nodup_cons.mp hnd).1
      have htail : ks.map (fun ty => (ty, if ty = k then g ty ++ [e] else g ty)) =
          ks.map (fun ty => (ty, g ty)) := by
        apply List.map_congr_left
        intro ty hty
        rw [if_neg (fun h2 => hk_not (by rw [← h2]; exact hty))]
      rw [htail]
      simp
    · rw [if_neg hk]
      have hmem2 : ty0 ∈ ks := by
        rcases List.mem_cons.mp hmem with h2 | h2
        · exact absurd h2.symm hk
        · exact h2
      rw [ih (List.nodup_cons.mp hnd).2 hmem2, if_neg hk]

lemma addEntry_map_new (ks : List String) (g : String → List Entry) (ty0 : String) (e : Entry)
    (hmem : ty0 ∉ ks) :
    addEntry (ks.map fun ty => (ty, g ty)) ty0 e =
      (ks.map fun ty => (ty, g ty)) ++ [(ty0, [e])] := by
  induction ks with
  | nil => rfl
  | cons k ks ih =>
    have hk : ¬ k = ty0 := fun h2 => hmem (by rw [← h2]; exact List.mem_cons_self k ks)
    simp only [List.map_cons, addEntry, if_neg hk]
    rw [ih (fun h2 => hmem (List.mem_cons_of_mem k h2))]
    rfl

lemma typeKeysFrom_cons (ks : List String) (e : Entry) (es : List Entry) :
    typeKeysFrom ks (e :: es) =
      typeKeysFrom (if e.ctype ∈ ks then ks else ks ++ [e.ctype]) es := rfl

lemma mem_typeKeysFrom (ty : String) : ∀ (es : List Entry) (ks : List String),
    ty ∈ typeKeysFrom ks es ↔ ty ∈ ks ∨ ∃ e ∈ es, e.ctype = ty := by
  intro es
  induction es with
  | nil => intro ks; simp [typeKeysFrom]
  | cons e es ih =>
    intro ks
    rw [typeKeysFrom_cons, ih]
    by_cases hmem : e.ctype ∈ ks
    · rw [if_pos hmem]
      constructor
      · rintro (h | ⟨e2, he2, hty⟩)
        · exact Or.inl h
        · exact Or.inr ⟨e2, List.mem_cons_of_mem e he2, hty⟩
      · rintro (h | ⟨e2, he2, hty⟩)
        · exact Or.inl h
        · rcases List.mem_cons.mp he2 with rfl | h2
          · exact Or.inl (by rw [← hty]; exact hmem)
          · exact Or.inr ⟨e2, h2, hty⟩
    · rw [if_neg hmem]
      constructor
      · rintro (h | ⟨e2, he2, hty⟩)
        · rcases List.mem_append.mp h with h2 | h2
          · exact Or.inl h2
          · exact Or.inr ⟨e, List.mem_cons_self e es, (List.mem_singleton.mp h2).symm⟩
        · exact Or.inr ⟨e2, List.mem_cons_of_mem e he2, hty⟩
      · rintro (h | ⟨e2, he2, hty⟩)
        · exact Or.inl (List.mem_append.mpr (Or.inl h))
        · rcases List.mem_cons.mp he2 with rfl | h2
          · exact Or.inl (List.mem_append.mpr (Or.inr (List.mem_singleton.mpr hty.symm)))
          · exact Or.inr ⟨e2, h2, hty⟩

lemma nodup_typeKeysFrom : ∀ (es : List Entry) (ks : List String),
    ks.Nodup → (typeKeysFrom ks es).Nodup := by
  intro es
  induction es with
  | nil => intro ks h; simpa [typeKeysFrom] using h
  | cons e es ih =>
    intro ks h
    rw [typeKeysFrom_cons]
    by_cases hmem : e.ctype ∈ ks
    · rw [if_pos hmem]; exact ih ks h
    · rw [if_neg hmem]; exact ih _ (nodup_append_singleton h hmem)

lemma alookup_map (f : String → List Entry) (ty : String) : ∀ ks : List String,
    alookup (ks.map fun t => (t, f t)) ty = if ty ∈ ks then some (f ty) else none := by
  intro ks
  induction ks with
  | nil => simp [alookup]
  | cons k ks ih =>
    simp only [List.map_cons, alookup]
    by_cases hk : k = ty
    · subst hk
      rw [if_pos rfl, if_pos (List.mem_cons_self k ks)]
    · have hne : ¬ ty = k := fun h2 => hk h2.symm
      rw [if_neg hk, ih]
      simp [List.mem_cons, hne]

lemma buildData_from (es : List Entry) : ∀ (ks : List String) (g : String → List Entry),
    ks.Nodup → (∀ ty, ty ∉ ks → g ty = []) →
    es.foldl (fun m e => addEntry m e.ctype e) (ks.map fun ty => (ty, g ty)) =
      (typeKeysFrom ks es).map
        (fun ty => (ty, g ty ++ es.filter (fun e2 => e2.ctype = ty))) := by
  induction es with
  | nil => intro ks g _ _; simp [typeKeysFrom]
  | cons e es ih =>
    intro ks g hnd hnew
    simp only [List.foldl_cons]
    rw [typeKeysFrom_cons]
    by_cases hmem : e.ctype ∈ ks
    · rw [if_pos hmem, addEntry_map_mem ks g e.ctype e hnd hmem]
      have hnew2 : ∀ ty, ty ∉ ks →
          (fun ty => if ty = e.ctype then g ty ++ [e] else g ty) ty = [] := by
        intro ty hty
        show (if ty = e.ctype then g ty ++ [e] else g ty) = []
        have h2 : ¬ ty = e.ctype := fun h3 => hty (by rw [h3]; exact hmem)
        rw [if_neg h2]
        exact hnew ty hty
      rw [ih ks (fun ty => if ty = e.ctype then g ty ++ [e] else g ty) hnd hnew2]
      apply List.map_congr_left
      intro ty _
      by_cases hty : ty = e.ctype
      · subst hty
        simp [List.filter_cons]
      · have h2 : ¬ e.ctype = ty := fun h3 => hty h3.symm
        simp [List.filter_cons, hty, h2]
    · rw [if_neg hmem, addEntry_map_new ks g e.ctype e hmem]
      have hmap : (ks.map fun ty => (ty, g ty)) ++ [(e.ctype, [e])] =
          (ks ++ [e.ctype]).map (fun ty => (ty, if ty = e.ctype then [e] else g ty)) := by
        rw [List.map_append]
        congr 1
        · apply List.map_congr_left
          intro ty hty
          have h2 : ¬ ty = e.ctype := fun h3 => hmem (by rw [← h3]; exact hty)
          rw [if_neg h2]
        · simp
      have hnd2 : (ks ++ [e.ctype]).Nodup := nodup_append_singleton hnd hmem
      have hnew2 : ∀ ty, ty ∉ ks ++ [e.ctype] →
          (fun ty => if ty = e.ctype then [e] else g ty) ty = [] := by
        intro ty hty
        show (if ty = e.ctype then [e] else g ty) = []
        have h2 : ¬ ty = e.ctype := by
          intro h3
          exact hty (List.mem_append.mpr (Or.inr (List.mem_singleton.mpr h3)))
        rw [if_neg h2]
        exact hnew ty (fun h3 => hty (List.mem_append.mpr (Or.inl h3)))
      rw [hmap, ih (ks ++ [e.ctype]) (fun ty => if ty = e.ctype then [e] else g ty) hnd2 hnew2]
      apply List.map_congr_left
      intro ty _
      by_cases hty : ty = e.ctype
      · subst hty
        simp [List.filter_cons, hnew e.ctype hmem]
      · have h2 : ¬ e.ctype = ty := fun h3 => hty h3.symm
        simp [List.filter_cons, hty, h2]

lemma buildData_eq (es : List Entry) :
    buildData es = (typeKeys es).map (fun ty => (ty, es.filter (fun e2 => e2.ctype = ty))) := by
  have h := buildData_from es [] (fun _ => []) List.nodup_nil (fun _ _ => rfl)
  simpa [buildData, typeKeys, typeKeysFrom] using h

end Release

namespace Release

/-! ## Section and breaking-block structure of the rendered changelog -/

lemma breakingOf_map_filter (es : List Entry) : ∀ ks : List String,
    breakingOf (ks.map fun ty => (ty, es.filter (fun e2 => e2.ctype = ty))) =
      groupedBreakingAux ks es := by
  intro ks
  induction ks with
  | nil => rfl
  | cons ty ks ih => simp only [List.map_cons, breakingOf, groupedBreakingAux, ih]

lemma string_head_of_append (p s : String) (c : Char) (t : List Char) (hp : p.data = c :: t) :
    ((p ++ s)).data.head? = some c := by
  rw [String.data_append, hp]
  rfl

lemma headerStr_head (ty : String) : (headerStr ty).data.head? = some '#' := by
  show ("## " ++ typeLabel ty ++ "\n").data.head? = some '#'
  rw [String.data_append, String.data_append]
  rfl

lemma renderEntryLine_head (e : Entry) : (renderEntryLine e).data.head? = some '-' := by
  show ("- " ++ e.description ++ " (" ++ e.hash ++ ")").data.head? = some '-'
  rw [String.data_append, String.data_append, String.data_append, String.data_append]
  rfl

lemma renderBreakingLine_head (e : Entry) : (renderBreakingLine e).data.head? = some '-' := by
  show ("- **BREAKING**: " ++ e.description ++ " (" ++ e.hash ++ ")").data.head? = some '-'
  rw [String.data_append, String.data_append, String.data_append, String.data_append]
  rfl

lemma ne_of_data_head {s t : String} {c d : Char} (hs : s.data.head? = some c)
    (ht : t.data.head? = some d) (hcd : ¬ c = d) : s ≠ t := by
  intro h
  rw [h, ht] at hs
  exact hcd (Option.some.inj hs).symm

lemma headerStr_ne_entryLine (ty : String) (e : Entry) : headerStr ty ≠ renderEntryLine e :=
  ne_of_data_head (headerStr_head ty) (renderEntryLine_head e) (by decide)

lemma headerStr_ne_breakingLine (ty : String) (e : Entry) : headerStr ty ≠ renderBreakingLine e :=
  ne_of_data_head (headerStr_head ty) (renderBreakingLine_head e) (by decide)

lemma headerStr_ne_empty (ty : String) : headerStr ty ≠ "" := by
  intro h
  have h2 := headerStr_head ty
  rw [h] at h2
  simp at h2

lemma headerStr_ne_bheader : ∀ ty ∈ typeOrder, ¬ headerStr ty = "## ⚠️ Breaking Changes\n" := by
  decide

lemma headerStr_inj : ∀ ty1 ∈ typeOrder, ∀ ty2 ∈ typeOrder,
    headerStr ty1 = headerStr ty2 → ty1 = ty2 := by
  decide

lemma mem_breakingOf_shape : ∀ (m : List (String × List Entry)) (s : String),
    s ∈ breakingOf m → ∃ e, s = renderBreakingLine e := by
  intro m
  induction m with
  | nil => intro s h; cases h
  | cons p rest ih =>
    intro s h
    obtain ⟨k, l⟩ := p
    simp only [breakingOf] at h
    rcases List.mem_append.mp h with h2 | h2
    · rcases List.mem_map.mp h2 with ⟨e, _, heq⟩
      exact ⟨e, heq.symm⟩
    · exact ih s h2

lemma mem_sectionsAux (s : String) (data : List (String × List Entry)) : ∀ tys : List String,
    s ∈ sectionsAux tys data ↔ ∃ ty ∈ tys, s ∈ sectionBlock data ty := by
  intro tys
  induction tys with
  | nil => simp [sectionsAux]
  | cons ty tys ih =>
    simp only [sectionsAux, List.mem_append, ih]
    constructor
    · rintro (h | ⟨ty2, hty2, h⟩)
      · exact ⟨ty, List.mem_cons_self ty tys, h⟩
      · exact ⟨ty2, List.mem_cons_of_mem ty hty2, h⟩
    · rintro ⟨ty2, hty2, h⟩
      rcases List.mem_cons.mp hty2 with rfl | h2
      · exact Or.inl h
      · exact Or.inr ⟨ty2, h2, h⟩

lemma header_mem_sectionBlock {data : List (String × List Entry)} {ty ty2 : String}
    (hty : ty ∈ typeOrder) (hty2 : ty2 ∈ typeOrder)
    (h : headerStr ty ∈ sectionBlock data ty2) :
    ty = ty2 ∧ ∃ l, alookup data ty2 = some l ∧ ¬ l.isEmpty = true := by
  unfold sectionBlock at h
  cases halo : alookup data ty2 with
  | none =>
    simp only [halo] at h
    exact absurd h (List.not_mem_nil _)
  | some l =>
    simp only [halo] at h
    by_cases hl : l.isEmpty = true
    · rw [if_pos hl] at h
      exact absurd h (List.not_mem_nil _)
    · rw [if_neg hl] at h
      rcases List.mem_cons.mp h with heq | hmem
      · exact ⟨headerStr_inj ty hty ty2 hty2 heq, l, rfl, hl⟩
      · rcases List.mem_append.mp hmem with h2 | h2
        · rcases List.mem_map.mp h2 with ⟨e, _, heq⟩
          exact absurd heq.symm (headerStr_ne_entryLine ty e)
        · exact absurd (List.mem_singleton.mp h2) (headerStr_ne_empty ty)

lemma header_in_own_sectionBlock {data : List (String × List Entry)} {ty : String}
    {l : List Entry} (halo : alookup data ty = some l) (hl : ¬ l.isEmpty = true) :
    headerStr ty ∈ sectionBlock data ty := by
  unfold sectionBlock
  simp only [halo]
  rw [if_neg hl]
  exact List.mem_cons_self _ _

lemma renderBreaking_mem_grouped (es : List Entry) (e : Entry) (he : e ∈ es)
    (hb : e.breaking = true) : ∀ ks : List String, e.ctype ∈ ks →
    renderBreakingLine e ∈ groupedBreakingAux ks es := by
  intro ks
  induction ks with
  | nil => intro h; cases h
  | cons ty ks ih =>
    intro hk
    simp only [groupedBreakingAux, List.mem_append]
    rcases List.mem_cons.mp hk with hty | hty
    · left
      apply List.mem_map_of_mem
      exact List.mem_filter.mpr ⟨List.mem_filter.mpr ⟨he, by simp [hty]⟩, by simp [hb]⟩
    · exact Or.inr (ih hty)

lemma breakingOf_ne_nil (es : List Entry) (e : Entry) (he : e ∈ es) (hb : e.breaking = true) :
    breakingOf (buildData es) ≠ [] := by
  rw [buildData_eq, breakingOf_map_filter]
  intro hnil
  have hk : e.ctype ∈ typeKeys es := (mem_typeKeysFrom e.ctype es []).mpr (Or.inr ⟨e, he, rfl⟩)
  have hmem := renderBreaking_mem_grouped es e he hb (typeKeys es) hk
  rw [hnil] at hmem
  exact absurd hmem (List.not_mem_nil _)

end Release

namespace Release

/-! ## Claim theorems: changelog synthesis -/

/-- Claim C2, counterexample: a single breaking feat commit produces a
"Features" section header with zero entry lines under it (the commit is
listed only in the breaking block), so a header of an empty section is
emitted. -/
theorem claim2_counterexample :
    changelogLines [⟨"feat", "x", true, "abc1234"⟩] =
      ["## ⚠️ Breaking Changes\n", "- **BREAKING**: x (abc1234)", "", "## ✨ Features\n", ""] ∧
    sectionBlock (buildData [⟨"feat", "x", true, "abc1234"⟩]) "feat" = ["## ✨ Features\n", ""] :=
  ⟨by decide, by decide⟩

/-- Claim C2, amended: a category section header is emitted exactly when
the category contains at least one classified commit, breaking ones
included; since only non-breaking entries are rendered under the header, a
category whose commits are all breaking yields a header with zero entry
lines. -/
theorem claim2_header_iff (es : List Entry) (ty : String) (hty : ty ∈ typeOrder) :
    headerStr ty ∈ changelogLines es ↔ ∃ e ∈ es, e.ctype = ty := by
  unfold changelogLines
  constructor
  · intro h
    rcases List.mem_append.mp h with hb | hs
    · exfalso
      by_cases hbe : (breakingOf (buildData es)).isEmpty = true
      · rw [if_pos hbe] at hb
        exact absurd hb (List.not_mem_nil _)
      · rw [if_neg hbe] at hb
        rcases List.mem_cons.mp hb with heq | hmem
        · exact headerStr_ne_bheader ty hty heq
        · rcases List.mem_append.mp hmem with h2 | h2
          · obtain ⟨e, heq⟩ := mem_breakingOf_shape _ _ h2
            exact headerStr_ne_breakingLine ty e heq
          · exact headerStr_ne_empty ty (List.mem_singleton.mp h2)
    · obtain ⟨ty2, hty2, hblock⟩ := (mem_sectionsAux _ _ typeOrder).mp hs
      obtain ⟨heq, l, halo, hlne⟩ := header_mem_sectionBlock hty hty2 hblock
      subst heq
      rw [buildData_eq, alookup_map] at halo
      by_cases hmem : ty ∈ typeKeys es
      · rw [if_pos hmem] at halo
        have hl : l = es.filter (fun e2 => e2.ctype = ty) := (Option.some.inj halo).symm
        have hne : es.filter (fun e2 => e2.ctype = ty) ≠ [] := by
          intro h2
          rw [hl, h2] at hlne
          exact hlne rfl
        obtain ⟨e, he⟩ := List.exists_mem_of_ne_nil _ hne
        have h3 := List.mem_filter.mp he
        exact ⟨e, h3.1, by simpa using h3.2⟩
      · rw [if_neg hmem] at halo
        exact absurd halo (Option.noConfusion)
  · rintro ⟨e, he, hcty⟩
    apply List.mem_append.mpr
    right
    apply (mem_sectionsAux _ _ typeOrder).mpr
    refine ⟨ty, hty, ?_⟩
    have hk : ty ∈ typeKeys es := (mem_typeKeysFrom ty es []).mpr (Or.inr ⟨e, he, hcty⟩)
    have halo : alookup (buildData es) ty = some (es.filter (fun e2 => e2.ctype = ty)) := by
      rw [buildData_eq, alookup_map, if_pos hk]
    have hemem : e ∈ es.filter (fun e2 => e2.ctype = ty) :=
      List.mem_filter.mpr ⟨he, by simp [hcty]⟩
    have hlne : ¬ (es.filter (fun e2 => e2.ctype = ty)).isEmpty = true := by
      intro h2
      rw [List.isEmpty_iff] at h2
      rw [h2] at hemem
      exact absurd hemem (List.not_mem_nil _)
    exact header_in_own_sectionBlock halo hlne

/-- Witness for C2: with one non-breaking feat commit, the Features header
is emitted. -/
theorem claim2_witness :
    headerStr "feat" ∈ changelogLines [⟨"feat", "y", false, "abc1234"⟩] :=
  (claim2_header_iff [⟨"feat", "y", false, "abc1234"⟩] "feat" (by decide)).mpr
    ⟨⟨"feat", "y", false, "abc1234"⟩, List.mem_cons_self _ _, rfl⟩

/-- Claim C3, counterexample: with commits [fix: x, feat!: b, fix!: a] the
breaking section renders a (h3) before b (h2) — entries are grouped by the
first occurrence of their commit type, not listed in original commit
order, which would be b (h2) before a (h3). -/
theorem claim3_counterexample :
    breakingOf (buildData
        [⟨"fix", "x", false, "h1"⟩, ⟨"feat", "b", true, "h2"⟩, ⟨"fix", "a", true, "h3"⟩]) =
      ["- **BREAKING**: a (h3)", "- **BREAKING**: b (h2)"] ∧
    ([⟨"fix", "x", false, "h1"⟩, ⟨"feat", "b", true, "h2"⟩,
        ⟨"fix", "a", true, "h3"⟩].filter (fun e => e.breaking)).map renderBreakingLine =
      ["- **BREAKING**: b (h2)", "- **BREAKING**: a (h3)"] ∧
    (["- **BREAKING**: a (h3)", "- **BREAKING**: b (h2)"] : List String) ≠
      ["- **BREAKING**: b (h2)", "- **BREAKING**: a (h3)"] :=
  ⟨by decide, by decide, by decide⟩

/-- Claim C3, amended: all breaking entries are rendered, each as
`- **BREAKING**: <description> (<hash>)`, in one dedicated leading section
placed before every category section; their order groups entries by the
first occurrence of their commit type, preserving commit order within each
type (not the global commit order). -/
theorem claim3_breaking_block (es : List Entry) :
    breakingOf (buildData es) = groupedBreakingAux (typeKeys es) es ∧
    ((∃ e ∈ es, e.breaking = true) →
      changelogLines es =
        "## ⚠️ Breaking Changes\n" ::
          (breakingOf (buildData es) ++ "" :: sectionsAux typeOrder (buildData es))) := by
  constructor
  · rw [buildData_eq]
    exact breakingOf_map_filter es (typeKeys es)
  · rintro ⟨e, he, hb⟩
    have hne := breakingOf_ne_nil es e he hb
    unfold changelogLines
    rw [if_neg (by simpa [List.isEmpty_iff] using hne)]
    simp

/-- Witness for C3: one breaking feat commit puts the breaking block at the
head of the changelog, before the sections. -/
theorem claim3_witness :
    changelogLines [⟨"feat", "b", true, "h2"⟩] =
      "## ⚠️ Breaking Changes\n" ::
        (breakingOf (buildData [⟨"feat", "b", true, "h2"⟩]) ++
          "" :: sectionsAux typeOrder (buildData [⟨"feat", "b", true, "h2"⟩])) :=
  (claim3_breaking_block [⟨"feat", "b", true, "h2"⟩]).2
    ⟨⟨"feat", "b", true, "h2"⟩, List.mem_cons_self _ _, rfl⟩

end Release


namespace Release

/-! ## Attribution: inverting the path regex -/

lemma eq_slash_of_notSlash_false {c : Char} (h : notSlash c = false) : c = '/' := by
  simpa [notSlash] using h

lemma ne_slash_of_notSlash_true {c : Char} (h : notSlash c = true) : ¬ c = '/' := by
  simpa [notSlash] using h

lemma notSlash_true_of_ne {c : Char} (h : ¬ c = '/') : notSlash c = true := by
  simpa [notSlash] using h

lemma takeWhile_mem {p : Char → Bool} : ∀ (l : List Char) (c : Char),
    c ∈ l.takeWhile p → p c = true := by
  intro l
  induction l with
  | nil => intro c h; cases h
  | cons x xs ih =>
    intro c h
    rw [List.takeWhile_cons] at h
    by_cases hx : p x
    · rw [if_pos hx] at h
      rcases List.mem_cons.mp h with rfl | h2
      · exact hx
      · exact ih c h2
    · rw [if_neg hx] at h
      cases h

lemma takeWhile_prefix {p : Char → Bool} : ∀ (l : List Char) (x : Char) (r : List Char),
    (∀ c ∈ l, p c = true) → p x = false →
    (l ++ x :: r).takeWhile p = l ∧ (l ++ x :: r).dropWhile p = x :: r := by
  intro l
  induction l with
  | nil =>
    intro x r _ hx
    constructor <;> simp [List.takeWhile_cons, List.dropWhile_cons, hx]
  | cons a l ih =>
    intro x r h hx
    have ha := h a (List.mem_cons_self a l)
    obtain ⟨h1, h2⟩ := ih x r (fun c hc => h c (List.mem_cons_of_mem a hc)) hx
    constructor
    · simp [List.takeWhile_cons, ha, h1]
    · simp [List.dropWhile_cons, ha, h2]

lemma dropWhile_head_false {p : Char → Bool} : ∀ (l : List Char) (c : Char) (t : List Char),
    l.dropWhile p = c :: t → p c = false := by
  intro l
  induction l with
  | nil => intro c t h; exact List.noConfusion h
  | cons a l ih =>
    intro c t h
    rw [List.dropWhile_cons] at h
    by_cases ha : p a
    · rw [if_pos ha] at h
      exact ih c t h
    · rw [if_neg ha] at h
      injection h with h1 _
      rw [← h1]
      simp at ha
      exact ha

lemma app_of_chars_iff (pl : List Char) (a : String) :
    app_of_chars pl = some a ↔
      ∃ cat tail : List Char, cat ≠ [] ∧ a.data ≠ [] ∧ (∀ ch ∈ cat, ch ≠ '/') ∧
        (∀ ch ∈ a.data, ch ≠ '/') ∧
        pl = 's' :: 'r' :: 'c' :: '/' :: (cat ++ '/' :: (a.data ++ '/' :: tail)) := by
  constructor
  · intro h
    rcases pl with _ | ⟨c1, _ | ⟨c2, _ | ⟨c3, _ | ⟨c4, rest⟩⟩⟩⟩
    · exact Option.noConfusion h
    · exact Option.noConfusion h
    · exact Option.noConfusion h
    · exact Option.noConfusion h
    simp only [app_of_chars] at h
    by_cases hc : c1 = 's' ∧ c2 = 'r' ∧ c3 = 'c' ∧ c4 = '/'
    case neg => rw [if_neg hc] at h; exact Option.noConfusion h
    rw [if_pos hc] at h
    obtain ⟨rfl, rfl, rfl, rfl⟩ := hc
    by_cases h1 : rest.takeWhile notSlash ≠ [] ∧ rest.dropWhile notSlash ≠ []
    case neg => rw [if_neg h1] at h; exact Option.noConfusion h
    rw [if_pos h1] at h
    obtain ⟨ht1ne, hd1ne⟩ := h1
    obtain ⟨d1, rest2, hd⟩ := List.exists_cons_of_ne_nil hd1ne
    rw [hd, List.tail_cons] at h
    by_cases h2 : rest2.takeWhile notSlash ≠ [] ∧ rest2.dropWhile notSlash ≠ []
    case neg => rw [if_neg h2] at h; exact Option.noConfusion h
    rw [if_pos h2] at h
    obtain ⟨ht2ne, hd2ne⟩ := h2
    obtain ⟨d2, tail2, hd2⟩ := List.exists_cons_of_ne_nil hd2ne
    have had : a.data = rest2.takeWhile notSlash := by rw [← Option.some.inj h]
    have hd1slash : d1 = '/' := eq_slash_of_notSlash_false (dropWhile_head_false rest d1 rest2 hd)
    have hd2slash : d2 = '/' :=
      eq_slash_of_notSlash_false (dropWhile_head_false rest2 d2 tail2 hd2)
    have hsplit2 : rest2 = rest2.takeWhile notSlash ++ '/' :: tail2 := by
      conv_lhs => rw [← List.takeWhile_append_dropWhile notSlash rest2]
      rw [hd2, hd2slash]
    have hsplit : rest =
        rest.takeWhile notSlash ++ '/' :: (rest2.takeWhile notSlash ++ '/' :: tail2) := by
      conv_lhs => rw [← List.takeWhile_append_dropWhile notSlash rest]
      rw [hd, hd1slash]
      conv_lhs => rw [hsplit2]
    refine ⟨rest.takeWhile notSlash, tail2, ht1ne, by rw [had]; exact ht2ne, ?_, ?_, ?_⟩
    · intro ch hch
      exact ne_slash_of_notSlash_true (takeWhile_mem rest ch hch)
    · intro ch hch
      rw [had] at hch
      exact ne_slash_of_notSlash_true (takeWhile_mem rest2 ch hch)
    · rw [had]
      exact congrArg (fun l => 's' :: 'r' :: 'c' :: '/' :: l) hsplit
  · rintro ⟨cat, tail, hcat, ha, hcatS, haS, hpl⟩
    subst hpl
    obtain ⟨cc, cs, rfl⟩ := List.exists_cons_of_ne_nil hcat
    obtain ⟨a1, as2, had⟩ := List.exists_cons_of_ne_nil ha
    have hcatP : ∀ c ∈ cc :: cs, notSlash c = true :=
      fun c hc => notSlash_true_of_ne (hcatS c hc)
    have haP : ∀ c ∈ a1 :: as2, notSlash c = true := by
      intro c hc
      apply notSlash_true_of_ne
      apply haS
      rw [had]
      exact hc
    have hslash : notSlash '/' = false := by simp [notSlash]
    rw [had]
    obtain ⟨ht, hd⟩ :=
      takeWhile_prefix (cc :: cs) '/' ((a1 :: as2) ++ '/' :: tail) hcatP hslash
    obtain ⟨ht2, hd2⟩ := takeWhile_prefix (a1 :: as2) '/' tail haP hslash
    simp only [app_of_chars]
    rw [if_pos (by simp), ht, hd, if_pos (by simp), List.tail_cons, ht2, hd2,
      if_pos (by simp), ← had]

lemma get_app_iff (p a : String) : get_app_from_path p = some a ↔ appPathShape p a := by
  unfold get_app_from_path appPathShape
  exact app_of_chars_iff p.data a

end Release

namespace Release

/-! ## Python string order: totality and transitivity -/

lemma charListLe_refl : ∀ as : List Char, charListLe as as = true := by
  intro as
  induction as with
  | nil => rfl
  | cons a as ih => simp [charListLe, ih]

lemma charListLe_total : ∀ as bs : List Char,
    charListLe as bs = true ∨ charListLe bs as = true := by
  intro as
  induction as with
  | nil => intro bs; exact Or.inl rfl
  | cons a as ih =>
    intro bs
    cases bs with
    | nil => exact Or.inr rfl
    | cons b bs =>
      simp only [charListLe, Bool.or_eq_true, Bool.and_eq_true, decide_eq_true_eq]
      rcases Nat.lt_trichotomy a.toNat b.toNat with h | h | h
      · exact Or.inl (Or.inl h)
      · rcases ih bs with h2 | h2
        · exact Or.inl (Or.inr ⟨h, h2⟩)
        · exact Or.inr (Or.inr ⟨h.symm, h2⟩)
      · exact Or.inr (Or.inl h)

lemma charListLe_trans : ∀ as bs cs : List Char,
    charListLe as bs = true → charListLe bs cs = true → charListLe as cs = true := by
  intro as
  induction as with
  | nil => intro bs cs _ _; rfl
  | cons a as ih =>
    intro bs cs h1 h2
    cases bs with
    | nil => simp [charListLe] at h1
    | cons b bs =>
      cases cs with
      | nil => simp [charListLe] at h2
      | cons c cs =>
        simp only [charListLe, Bool.or_eq_true, Bool.and_eq_true, decide_eq_true_eq] at h1 h2 ⊢
        rcases h1 with h1 | ⟨hab, h1⟩ <;> rcases h2 with h2 | ⟨hbc, h2⟩
        · exact Or.inl (by omega)
        · exact Or.inl (by omega)
        · exact Or.inl (by omega)
        · exact Or.inr ⟨by omega, ih bs cs h1 h2⟩

instance : IsTotal String (fun s t => pyStrLe s t = true) :=
  ⟨fun s t => charListLe_total s.data t.data⟩

instance : IsTrans String (fun s t => pyStrLe s t = true) :=
  ⟨fun s t u h1 h2 => charListLe_trans s.data t.data u.data h1 h2⟩

/-! ## Claim theorem: change attribution -/

/-- Claim C9: attribution returns exactly the set of package-name
components of changed paths of shape `src/<category>/<packageName>/...`
(non-matching paths contribute nothing), duplicate-free and rendered in
Python sorted order; in particular the two example paths attribute to
packages bar and foo. -/
theorem claim9_attribution :
    (∀ (files : List String) (a : String),
      a ∈ sorted_affected files ↔ ∃ pth ∈ files, appPathShape pth a) ∧
    (∀ files : List String,
      (sorted_affected files).Sorted (fun s t => pyStrLe s t = true) ∧
        (sorted_affected files).Nodup) ∧
    sorted_affected ["src/multisrc/foo/Foo.kt", "src/en/bar/Bar.kt"] = ["bar", "foo"] := by
  refine ⟨?_, ?_, by decide⟩
  · intro files a
    unfold sorted_affected detect_affected_apps
    rw [(List.perm_insertionSort _ _).mem_iff, List.mem_dedup, List.mem_filterMap]
    constructor
    · rintro ⟨pth, hp, hg⟩
      exact ⟨pth, hp, (get_app_iff pth a).mp hg⟩
    · rintro ⟨pth, hp, hs⟩
      exact ⟨pth, hp, (get_app_iff pth a).mpr hs⟩
  · intro files
    exact ⟨List.sorted_insertionSort _ _,
      ((List.perm_insertionSort _ _).nodup_iff).mpr (List.nodup_dedup _)⟩

end Release
